import Mathlib

/-!
# Verification of the BalancerTracker reconciliation and persistence layer

A shallow embedding, in Lean 4, of the data model and the operations of
`balancer_tracker.py` and `data_store.py`: the reward-item decomposition
performed by `BalancerTracker._parse_pool`, the Aura overlay APR computation
of `AuraFinanceAPI.calculate_aura_apr`, the CoinGecko price cache of
`AuraFinanceAPI.fetch_all_prices` / `get_token_price`, and the JSON store
(`PoolDataStore`): pool-key slugs, snapshot serialization and the history
append.  Python floats are modelled by rationals; `round(x, n)` is modelled
by nearest-integer rounding at `n` decimal places (tie-breaking of binary
floats is abstracted); Python `None` and falsy absent values are modelled by
`Option`.
-/

namespace BalancerTracker

/-- `round(x, n)` of Python, on rationals: round `x * 10^n` to the nearest
integer and scale back. -/
def roundTo (n : ℕ) (q : ℚ) : ℚ := (round (q * 10 ^ n) : ℤ) / 10 ^ n

/-! ## Raw API payloads (the fields `_parse_pool` reads) -/

/-- One entry of `dynamicData.aprItems` in the Balancer API payload.
`apr` is `Option` because `item.get('apr', 0) or 0` tolerates a missing or
null value. -/
structure AprItem where
  type : String
  title : String
  apr : Option ℚ
  rewardTokenSymbol : String
  deriving Repr, DecidableEq

/-- One entry of `poolTokens` in the Balancer API payload. -/
structure PoolToken where
  symbol : String
  balance : Option ℚ
  weight : Option ℚ
  deriving Repr, DecidableEq

/-- The part of a raw Balancer pool payload that `_parse_pool` reads. -/
structure RawPool where
  id : String
  address : String
  name : String
  totalLiquidity : Option ℚ
  totalShares : Option ℚ
  aprItems : List AprItem
  poolTokens : List PoolToken
  deriving Repr, DecidableEq

/-- One entry of `rewardData` in an Aura subgraph pool payload.
`tokenDecimals` mirrors `int(token.get('decimals', 18) or 18)` and
`rewardRate` mirrors `float(reward.get('rewardRate', 0) or 0)`. -/
structure RewardData where
  tokenSymbol : String
  tokenDecimals : ℕ
  rewardRate : ℚ
  deriving Repr, DecidableEq

/-- The part of an Aura subgraph pool payload that the tracker reads. -/
structure AuraPool where
  rewardData : List RewardData
  totalStaked : ℚ
  rewardPool : Option String
  deriving Repr, DecidableEq

/-! ## The PoolData record (`data_store.PoolData`) -/

/-- `PoolData` of `data_store.py`: the canonical pool record.
`other_rewards` entries are the `{'token': title, 'apy': value}` dicts,
kept as pairs. -/
structure PoolData where
  name : String
  chain : String
  address : String
  pool_id : String
  tvl : ℚ
  base_apy : ℚ
  bal_rewards_apy : List ℚ
  other_rewards : List (String × ℚ)
  total_apy : ℚ
  coins : List String
  coin_ratios : List String
  coin_amounts : List ℚ
  coin_prices : List ℚ
  aura_apy : Option ℚ
  aura_tvl : Option ℚ
  aura_boost : Option ℚ
  aura_staking_contract : Option String
  deriving Repr, DecidableEq

/-! ## Reward decomposition (`_parse_pool`, APR-item loop) -/

/-- Accumulator of the APR-item classification loop in `_parse_pool`. -/
structure RewardBreakdown where
  base_apy : ℚ
  bal_base : ℚ
  bal_boost : ℚ
  other_rewards : List (String × ℚ)
  deriving Repr, DecidableEq

/-- One iteration of the `for item in apr_items` loop of `_parse_pool`:
`SWAP_FEE_24H` assigns `base_apy`, `VEBAL_EMISSIONS` assigns `bal_base`,
`STAKING_BOOST` assigns `bal_boost`, any other type with positive value is
appended to `other_rewards`; `apr_value` is the fraction times 100. -/
def classifyItem (s : RewardBreakdown) (item : AprItem) : RewardBreakdown :=
  let apr_value := item.apr.getD 0 * 100
  if item.type = "SWAP_FEE_24H" then { s with base_apy := apr_value }
  else if item.type = "VEBAL_EMISSIONS" then { s with bal_base := apr_value }
  else if item.type = "STAKING_BOOST" then { s with bal_boost := apr_value }
  else if apr_value > 0 then
    { s with other_rewards := s.other_rewards ++ [(item.title, apr_value)] }
  else s

/-- The full APR-item loop of `_parse_pool`, starting from all-zero
accumulators. -/
def decomposeAprItems (items : List AprItem) : RewardBreakdown :=
  items.foldl classifyItem ⟨0, 0, 0, []⟩

/-- `sum(r['apy'] for r in other_rewards)`. -/
def otherSum (l : List (String × ℚ)) : ℚ := (l.map Prod.snd).sum

/-! ## Aura overlay APR (`AuraFinanceAPI.calculate_aura_apr`) -/

/-- The result dict of `calculate_aura_apr` (when non-empty). -/
structure AuraAprResult where
  total_apr : ℚ
  bal_apr : ℚ
  aura_apr : ℚ
  extra_apr : ℚ
  deriving Repr, DecidableEq

/-- Accumulator of the reward loop in `calculate_aura_apr`. -/
structure AuraAprAcc where
  bal_apr : ℚ
  aura_apr : ℚ
  extra_apr : ℚ
  deriving Repr, DecidableEq

/-- Python truthiness of the looked-up price: `not token_price` holds when
the lookup returned `None` or `0.0`. -/
def isFalsyPrice : Option ℚ → Bool
  | none => true
  | some p => p == 0

/-- One iteration of the `for reward in reward_data` loop of
`calculate_aura_apr`: skip non-positive rates; on a falsy price, substitute
`bal_max_apr` if the symbol is `BAL` and otherwise drop the reward; else
compute `(rate / 10^decimals) * seconds_per_year * price / tvl * 100` and
route it to the `BAL` / `AURA` / extra bucket. -/
def auraRewardStep (getPrice : String → Option ℚ) (tvl bal_max_apr : ℚ)
    (s : AuraAprAcc) (r : RewardData) : AuraAprAcc :=
  if r.rewardRate ≤ 0 then s
  else
    let price := getPrice r.tokenSymbol
    if isFalsyPrice price then
      if r.tokenSymbol = "BAL" then { s with bal_apr := bal_max_apr } else s
    else
      let tokens_per_year := r.rewardRate / 10 ^ r.tokenDecimals * (365 * 86400)
      let apr := tokens_per_year * price.getD 0 / tvl * 100
      if r.tokenSymbol = "BAL" then { s with bal_apr := apr }
      else if r.tokenSymbol = "AURA" then { s with aura_apr := apr }
      else { s with extra_apr := s.extra_apr + apr }

/-- `AuraFinanceAPI.calculate_aura_apr`: returns the empty dict (here
`none`) when the pool is absent/falsy or `tvl <= 0`, otherwise sums the
per-reward APRs by bucket and totals them. -/
def calculate_aura_apr (getPrice : String → Option ℚ) (aura_pool : Option AuraPool)
    (tvl bal_max_apr : ℚ) : Option AuraAprResult :=
  match aura_pool with
  | none => none
  | some pool =>
      if tvl ≤ 0 then none
      else
        let acc := pool.rewardData.foldl (auraRewardStep getPrice tvl bal_max_apr) ⟨0, 0, 0⟩
        some ⟨acc.bal_apr + acc.aura_apr + acc.extra_apr, acc.bal_apr, acc.aura_apr, acc.extra_apr⟩

/-- `AuraFinanceAPI.get_aura_tvl`: staked amount is in wei (18 decimals),
scaled by the BPT unit price. -/
def get_aura_tvl (aura_pool : Option AuraPool) (bpt_price : ℚ) : ℚ :=
  match aura_pool with
  | none => 0
  | some pool => pool.totalStaked / 10 ^ 18 * bpt_price

/-! ## Pool parsing (`BalancerTracker._parse_pool`) -/

/-- Python `str.lower()` (ASCII), character by character. -/
def pyLower (s : String) : String := String.mk (s.data.map Char.toLower)

/-- Python `str.upper()` (ASCII), character by character. -/
def pyUpper (s : String) : String := String.mk (s.data.map Char.toUpper)

/-- `f"{x:.1f}"` on a rational: nearest value with one decimal digit
(the tie-breaking of binary floats is abstracted). -/
def fmtOneDecimal (q : ℚ) : String :=
  let n : ℤ := round (q * 10)
  (if n < 0 then "-" else "") ++ toString (n.natAbs / 10) ++ "." ++ toString (n.natAbs % 10)

/-- The per-token body of the token loop in `_parse_pool` producing the
`coin_ratios` strings: weighted pools use `weight * 100`, non-weighted pools
estimate an equal split over the token count. -/
def coinRatioString (numTokens : ℕ) (t : PoolToken) : String :=
  let ratio_pct : ℚ :=
    match t.weight with
    | some w => w * 100
    | none => 100 / (numTokens : ℚ)
  t.symbol ++ ": " ++ fmtOneDecimal ratio_pct ++ "%"

/-- `BalancerTracker._parse_pool`.  External collaborators are passed as
functions: `auraLookup` is `AuraFinanceAPI.find_pool_by_balancer_address`
(already keyed by lowercase address, so the lowercasing of the queried
address is applied here), `getPrice` is `AuraFinanceAPI.get_token_price`.
`auraApi` models `self.aura_api` being non-None and `aura_enabled` the
argument of the same name; a falsy/absent payload yields `none`. -/
def parse_pool (auraApi : Bool) (auraLookup : String → Option AuraPool)
    (getPrice : String → Option ℚ) (pool_data : Option RawPool) (chain : String)
    (aura_enabled : Bool) : Option PoolData :=
  match pool_data with
  | none => none
  | some raw =>
      let tvl := raw.totalLiquidity.getD 0
      let d := decomposeAprItems raw.aprItems
      let bal_rewards : List ℚ := [d.bal_base, d.bal_base + d.bal_boost]
      let total_apy := d.base_apy + d.bal_base + otherSum d.other_rewards
      let coins := raw.poolTokens.map PoolToken.symbol
      let coin_amounts := raw.poolTokens.map (fun t => t.balance.getD 0)
      let coin_ratios := raw.poolTokens.map (coinRatioString raw.poolTokens.length)
      let coin_prices := raw.poolTokens.map (fun _ => (0 : ℚ))
      let aura : Option ℚ × Option ℚ × Option ℚ × Option String :=
        if auraApi && aura_enabled then
          match auraLookup (pyLower raw.address) with
          | some aura_pool =>
              let bal_max_apr := d.bal_base + d.bal_boost
              let aura_apr_data := calculate_aura_apr getPrice (some aura_pool) tvl bal_max_apr
              let aura_apy := aura_apr_data.map
                (fun ad => d.base_apy + ad.total_apr + otherSum d.other_rewards)
              let total_shares := raw.totalShares.getD 0
              let bpt_price := if total_shares > 0 then tvl / total_shares else 1
              let aura_tvl := get_aura_tvl (some aura_pool) bpt_price
              (aura_apy, some aura_tvl, some (5 / 2 : ℚ), aura_pool.rewardPool)
          | none => (none, none, none, none)
        else (none, none, none, none)
      some {
        name := raw.name
        chain := chain
        address := raw.address
        pool_id := raw.id
        tvl := tvl
        base_apy := d.base_apy
        bal_rewards_apy := bal_rewards
        other_rewards := d.other_rewards
        total_apy := total_apy
        coins := coins
        coin_ratios := coin_ratios
        coin_amounts := coin_amounts
        coin_prices := coin_prices
        aura_apy := aura.1
        aura_tvl := aura.2.1
        aura_boost := aura.2.2.1
        aura_staking_contract := aura.2.2.2 }

/-! ## Pool keys (`PoolDataStore._generate_pool_key`) -/

/-- Characters the regex class `[a-z0-9]` matches. -/
def isLowerAlnum (c : Char) : Bool := ('a' ≤ c && c ≤ 'z') || ('0' ≤ c && c ≤ '9')

/-- First phase of `re.sub(r'[^a-z0-9]+', '_', name)`: every character
outside `[a-z0-9]` becomes an underscore. -/
def mapNonAlnum (l : List Char) : List Char :=
  l.map fun c => if isLowerAlnum c then c else '_'

/-- Second phase of the regex substitution: adjacent underscores collapse
to one, so each maximal run of substituted characters yields a single
underscore. -/
def squeezeUnd : List Char → List Char
  | [] => []
  | [c] => [c]
  | a :: b :: rest =>
      if a = '_' ∧ b = '_' then squeezeUnd (b :: rest) else a :: squeezeUnd (b :: rest)

/-- The character stripped at both ends by `.strip('_')`. -/
def isUnd (c : Char) : Bool := c == '_'

/-- `.strip('_')`: drop leading and trailing underscores. -/
def stripUnd (l : List Char) : List Char :=
  ((l.dropWhile isUnd).reverse.dropWhile isUnd).reverse

/-- The name-slug of `_generate_pool_key`: lowercase, collapse runs of
non-`[a-z0-9]` characters to one underscore, strip outer underscores. -/
def slugify (s : String) : String :=
  String.mk (stripUnd (squeezeUnd (mapNonAlnum (s.data.map Char.toLower))))

/-- `PoolDataStore._generate_pool_key`: `f"{pool.chain}_{name}"` with the
slugified name; the chain is used verbatim. -/
def generate_pool_key (chain name : String) : String :=
  chain ++ "_" ++ slugify name

/-! ## Snapshot serialization (`_pool_to_json` / `_json_to_pool`) -/

/-- `f"{x:.2f}"` on a rational (two decimal digits, zero padded). -/
def fmtTwoDecimal (q : ℚ) : String :=
  let n : ℤ := round (q * 100)
  let r := n.natAbs % 100
  (if n < 0 then "-" else "") ++ toString (n.natAbs / 100) ++ "." ++
    (if r < 10 then "0" ++ toString r else toString r)

/-- `PoolDataStore._format_currency`: dollar amount with B/M/K suffixes. -/
def format_currency (amount : ℚ) : String :=
  if amount ≥ 1000000000 then "$" ++ fmtTwoDecimal (amount / 1000000000) ++ "B"
  else if amount ≥ 1000000 then "$" ++ fmtTwoDecimal (amount / 1000000) ++ "M"
  else if amount ≥ 1000 then "$" ++ fmtTwoDecimal (amount / 1000) ++ "K"
  else "$" ++ fmtTwoDecimal amount

/-- The serialized `aura` block of a pool (when not null). -/
structure AuraJson where
  apy : Option ℚ
  tvl : Option ℚ
  boost : Option ℚ
  staking_contract : Option String
  deriving Repr, DecidableEq

/-- One element of the `pools` array written by `PoolDataStore.save`,
with the nested `data` and `tokens` blocks flattened into fields. -/
structure PoolJson where
  id : String
  name : String
  chain : String
  address : String
  pool_id : String
  tvl : ℚ
  tvl_formatted : String
  base_apy : ℚ
  bal_min : ℚ
  bal_max : ℚ
  other_rewards : List (String × ℚ)
  total_apy : ℚ
  coins : List String
  ratios : List String
  amounts : List ℚ
  prices : List ℚ
  aura : Option AuraJson
  deriving Repr, DecidableEq

/-- `PoolDataStore._pool_to_json`: money rounds to 2 decimals, percentages
to 4, token amounts to 6; the `aura` block is null exactly when `aura_apy`
is `None`. -/
def pool_to_json (p : PoolData) : PoolJson where
  id := generate_pool_key p.chain p.name
  name := p.name
  chain := p.chain
  address := p.address
  pool_id := p.pool_id
  tvl := roundTo 2 p.tvl
  tvl_formatted := format_currency p.tvl
  base_apy := roundTo 4 p.base_apy
  bal_min := match p.bal_rewards_apy with
    | [] => 0
    | x :: _ => roundTo 4 x
  bal_max := match p.bal_rewards_apy with
    | _ :: y :: _ => roundTo 4 y
    | _ => 0
  other_rewards := p.other_rewards
  total_apy := roundTo 4 p.total_apy
  coins := p.coins
  ratios := p.coin_ratios
  amounts := p.coin_amounts.map (roundTo 6)
  prices := p.coin_prices.map (roundTo 4)
  aura := match p.aura_apy with
    | none => none
    | some _ => some ⟨p.aura_apy.map (roundTo 4), p.aura_tvl.map (roundTo 2),
        p.aura_boost.map (roundTo 2), p.aura_staking_contract⟩

/-- `PoolDataStore._json_to_pool`: rebuilds a `PoolData` from a serialized
pool; `aura = data.get("aura") or {}` makes every aura field a plain
optional lookup. -/
def json_to_pool (j : PoolJson) : PoolData where
  name := j.name
  chain := j.chain
  address := j.address
  pool_id := j.pool_id
  tvl := j.tvl
  base_apy := j.base_apy
  bal_rewards_apy := [j.bal_min, j.bal_max]
  other_rewards := j.other_rewards
  total_apy := j.total_apy
  coins := j.coins
  coin_ratios := j.ratios
  coin_amounts := j.amounts
  coin_prices := j.prices
  aura_apy := j.aura.bind AuraJson.apy
  aura_tvl := j.aura.bind AuraJson.tvl
  aura_boost := j.aura.bind AuraJson.boost
  aura_staking_contract := j.aura.bind AuraJson.staking_contract

/-- `PoolDataStore.save` restricted to its data content: an empty record
list writes nothing (returns the empty-path marker, here `none`), otherwise
the file's `pools` array is the serialized records in order. -/
def savePools (l : List PoolData) : Option (List PoolJson) :=
  if l = [] then none else some (l.map pool_to_json)

/-- `PoolDataStore.load` on a well-formed file: deserializes every element
of the `pools` array in order. -/
def loadPools (js : List PoolJson) : List PoolData :=
  js.map json_to_pool

/-! ## History store (`PoolDataStore.append_history`) -/

/-- One element of a pool's `snapshots` series in the history file. -/
structure Snapshot where
  timestamp : String
  tvl : ℚ
  base_apy : ℚ
  bal_rewards_min : ℚ
  bal_rewards_max : ℚ
  total_apy : ℚ
  aura_apy : Option ℚ
  aura_tvl : Option ℚ
  deriving Repr, DecidableEq

/-- A pool's slot in the history file: the metadata block and the
snapshot series. -/
structure PoolHistorySlot where
  name : String
  chain : String
  address : String
  pool_id : String
  snapshots : List Snapshot
  deriving Repr, DecidableEq

/-- The history file envelope; `pools` is an insertion-ordered map
(a Python dict), modelled as an association list. -/
structure History where
  version : String
  last_updated : String
  pools : List (String × PoolHistorySlot)
  deriving Repr, DecidableEq

/-- `PoolDataStore._empty_history` (the creation timestamp is passed in). -/
def empty_history (ts : String) : History := ⟨"1.0", ts, []⟩

/-- Dict lookup on the association-list model. -/
def lookupAssoc {α : Type} : List (String × α) → String → Option α
  | [], _ => none
  | (k', v) :: rest, k => if k' = k then some v else lookupAssoc rest k

/-- Dict "get or create, then overwrite" on the association-list model:
an existing key keeps its position, a new key is appended (Python dict
insertion order). -/
def updateAssoc {α : Type} : List (String × α) → String → (Option α → α) → List (String × α)
  | [], k, f => [(k, f none)]
  | (k', v) :: rest, k, f =>
      if k' = k then (k', f (some v)) :: rest else (k', v) :: updateAssoc rest k f

/-- The snapshot dict built for one pool in `append_history`, with the
shared run timestamp. -/
def mkSnapshot (ts : String) (p : PoolData) : Snapshot where
  timestamp := ts
  tvl := roundTo 2 p.tvl
  base_apy := roundTo 4 p.base_apy
  bal_rewards_min := match p.bal_rewards_apy with
    | [] => 0
    | x :: _ => roundTo 4 x
  bal_rewards_max := match p.bal_rewards_apy with
    | _ :: y :: _ => roundTo 4 y
    | _ => 0
  total_apy := roundTo 4 p.total_apy
  aura_apy := p.aura_apy.map (roundTo 4)
  aura_tvl := p.aura_tvl.map (roundTo 2)

/-- The retention trim of `append_history`: a truthy `max_snapshots`
keeps only the last `max_snapshots` entries (`snapshots[-max_snapshots:]`)
when the series exceeds it. -/
def trimSnapshots (max_snapshots : Option ℕ) (snaps : List Snapshot) : List Snapshot :=
  match max_snapshots with
  | none => snaps
  | some k => if k ≠ 0 ∧ k < snaps.length then snaps.drop (snaps.length - k) else snaps

/-- The per-record body of the `for pool in pool_data_list` loop of
`append_history`: create the slot if the key is new (metadata from this
record), append one snapshot, trim the touched series. -/
def appendOnePool (ts : String) (max_snapshots : Option ℕ)
    (pools : List (String × PoolHistorySlot)) (p : PoolData) :
    List (String × PoolHistorySlot) :=
  updateAssoc pools (generate_pool_key p.chain p.name) fun slot? =>
    let slot := slot?.getD ⟨p.name, p.chain, p.address, p.pool_id, []⟩
    { slot with snapshots := trimSnapshots max_snapshots (slot.snapshots ++ [mkSnapshot ts p]) }

/-- `PoolDataStore.append_history` on the loaded envelope: an empty record
list leaves the file untouched; otherwise `last_updated` is set to the run
timestamp and each record appends one snapshot to its keyed series. -/
def append_history (l : List PoolData) (max_snapshots : Option ℕ) (ts : String)
    (h : History) : History :=
  if l = [] then h
  else { h with last_updated := ts, pools := l.foldl (appendOnePool ts max_snapshots) h.pools }

/-! ## Price cache (`AuraFinanceAPI.fetch_all_prices` / `get_token_price`) -/

/-- `AuraFinanceAPI.COINGECKO_IDS`, in source (dict-insertion) order. -/
def COINGECKO_IDS : List (String × String) :=
  [("AURA", "aura-finance"), ("BAL", "balancer"), ("GHO", "gho"),
   ("USDC", "usd-coin"), ("OP", "optimism"), ("axlOP", "optimism")]

/-- The reverse mapping `id_to_symbols` built in `fetch_all_prices`:
all symbols sharing one CoinGecko id, in insertion order. -/
def idToSymbols (cg_id : String) : List String :=
  COINGECKO_IDS.filterMap fun si => if si.2 = cg_id then some si.1 else none

/-- Dict assignment `cache[symbol] = price`: overwrite in place or append. -/
def insertAssoc {α : Type} : List (String × α) → String → α → List (String × α)
  | [], k, v => [(k, v)]
  | (k', v') :: rest, k, v =>
      if k' = k then (k', v) :: rest else (k', v') :: insertAssoc rest k v

/-- One iteration of the `for cg_id, price_data in data.items()` loop of
`fetch_all_prices`: `price_data.get('usd')` may be absent, and
`if price and cg_id in id_to_symbols` requires a truthy (non-zero) price
before the symbols are cached. -/
def applyPriceEntry (cache : List (String × ℚ)) (e : String × Option ℚ) :
    List (String × ℚ) :=
  match e.2 with
  | none => cache
  | some price =>
      if price ≠ 0 ∧ idToSymbols e.1 ≠ [] then
        (idToSymbols e.1).foldl (fun c s => insertAssoc c s price) cache
      else cache

/-- `fetch_all_prices` on a successful oracle response `data` (a map from
CoinGecko id to an optional USD price), starting from the empty per-run
cache. -/
def fetch_all_prices (data : List (String × Option ℚ)) : List (String × ℚ) :=
  data.foldl applyPriceEntry []

/-- `AuraFinanceAPI.get_token_price` against a fetched cache: exact symbol
first, then the uppercased symbol, else absent. -/
def get_token_price (cache : List (String × ℚ)) (symbol : String) : Option ℚ :=
  match lookupAssoc cache symbol with
  | some p => some p
  | none => lookupAssoc cache (pyUpper symbol)

/-! ## Helper lemmas -/

/-- An APR item outside the three classified types whose value is not
positive leaves the classification accumulator unchanged. -/
theorem classifyItem_drop (it : AprItem) (s : RewardBreakdown)
    (h1 : it.type ≠ "SWAP_FEE_24H") (h2 : it.type ≠ "VEBAL_EMISSIONS")
    (h3 : it.type ≠ "STAKING_BOOST") (h4 : it.apr.getD 0 ≤ 0) :
    classifyItem s it = s := by
  have h5 : ¬ (it.apr.getD 0 * 100 > 0) := by simpa using h4
  simp [classifyItem, h1, h2, h3, h5]

/-- Removing an inert APR item from anywhere in the list does not change
the decomposition. -/
theorem decompose_drop (pre post : List AprItem) (it : AprItem)
    (h1 : it.type ≠ "SWAP_FEE_24H") (h2 : it.type ≠ "VEBAL_EMISSIONS")
    (h3 : it.type ≠ "STAKING_BOOST") (h4 : it.apr.getD 0 ≤ 0) :
    decomposeAprItems (pre ++ it :: post) = decomposeAprItems (pre ++ post) := by
  unfold decomposeAprItems
  rw [List.foldl_append, List.foldl_append, List.foldl_cons,
    classifyItem_drop it _ h1 h2 h3 h4]

/-- A reward entry with a non-positive rate leaves the overlay accumulator
unchanged. -/
theorem auraRewardStep_skip (getPrice : String → Option ℚ) (tvl bal_max_apr : ℚ)
    (s : AuraAprAcc) (r : RewardData) (h : r.rewardRate ≤ 0) :
    auraRewardStep getPrice tvl bal_max_apr s r = s := by
  simp [auraRewardStep, h]

/-- The classification keeps `bal_boost` nonnegative as long as every
`STAKING_BOOST` item carries a nonnegative value. -/
theorem foldl_boost_nonneg (items : List AprItem) (s : RewardBreakdown)
    (h : ∀ it ∈ items, it.type = "STAKING_BOOST" → 0 ≤ it.apr.getD 0)
    (hs : 0 ≤ s.bal_boost) :
    0 ≤ (items.foldl classifyItem s).bal_boost := by
  induction items generalizing s with
  | nil => exact hs
  | cons it rest ih =>
      rw [List.foldl_cons]
      refine ih _ (fun x hx => h x (List.mem_cons_of_mem _ hx)) ?_
      simp only [classifyItem]
      split_ifs with hA hB hC hD
      · exact hs
      · exact hs
      · simpa using h it (List.mem_cons_self _ _) hC
      · exact hs
      · exact hs

/-! ## C9 -/

/-- C9: for every second-source pool and every `tvl ≤ 0`, the overlay APR
computation returns the empty result: the per-reward division by `tvl` is
never reached. -/
theorem overlay_empty_on_nonpositive_tvl (getPrice : String → Option ℚ)
    (aura_pool : Option AuraPool) (tvl bal_max_apr : ℚ) (h : tvl ≤ 0) :
    calculate_aura_apr getPrice aura_pool tvl bal_max_apr = none := by
  cases aura_pool with
  | none => rfl
  | some p => simp [calculate_aura_apr, h]

/-- Witness for C9 at a concrete pool with one reward entry and `tvl = 0`. -/
theorem overlay_empty_on_nonpositive_tvl_check :
    (0 : ℚ) ≤ 0 ∧
      calculate_aura_apr (fun _ => none) (some ⟨[⟨"BAL", 18, 1⟩], 0, none⟩) 0 5 = none :=
  ⟨le_refl 0, overlay_empty_on_nonpositive_tvl _ _ _ _ (le_refl 0)⟩

/-! ## C8 -/

/-- The reward items of the spec's worked example. -/
def exampleAprItems : List AprItem :=
  [⟨"SWAP_FEE_24H", "Swap fees", some (1 / 20), ""⟩,
   ⟨"VEBAL_EMISSIONS", "BAL emissions", some (1 / 50), ""⟩,
   ⟨"STAKING_BOOST", "Boost", some (3 / 100), ""⟩]

/-- A raw pool carrying the example items with `tvl = 1,000,000`. -/
def exampleRaw : RawPool :=
  ⟨"pid", "0xabc", "Example Pool", some 1000000, some 0, exampleAprItems, []⟩

/-- C8: every parsed record satisfies
`total_apy = base_apy + bal_rewards_apy[0] + sum(other_rewards)` (the
unboosted reward figure), and the example items
`[{swap-fee, 0.05}, {base-emission, 0.02}, {boost-emission, 0.03}]`
yield `base_apy = 5`, `bal_rewards_apy = [2, 5]`, `total_apy = 7`. -/
theorem total_apy_formula :
    (∀ (auraApi : Bool) (auraLookup : String → Option AuraPool)
        (getPrice : String → Option ℚ) (raw : RawPool) (chain : String)
        (aura_enabled : Bool) (p : PoolData),
        parse_pool auraApi auraLookup getPrice (some raw) chain aura_enabled = some p →
        p.total_apy = p.base_apy + p.bal_rewards_apy.headD 0 + otherSum p.other_rewards)
    ∧ (parse_pool false (fun _ => none) (fun _ => none) (some exampleRaw) "ethereum"
        false).map (fun p => (p.base_apy, p.bal_rewards_apy, p.total_apy))
        = some (5, [2, 5], 7) := by
  constructor
  · intro auraApi auraLookup getPrice raw chain aura_enabled p hp
    simp only [parse_pool, Option.some.injEq] at hp
    subst hp
    rfl
  · simp [parse_pool, decomposeAprItems, classifyItem, otherSum, exampleRaw, exampleAprItems]
    norm_num

/-- Witness for C8: the formula instantiated on the example pool itself. -/
theorem total_apy_formula_check :
    ∃ p, parse_pool false (fun _ => none) (fun _ => none) (some exampleRaw) "ethereum"
        false = some p ∧
      p.total_apy = p.base_apy + p.bal_rewards_apy.headD 0 + otherSum p.other_rewards := by
  refine ⟨_, rfl, ?_⟩
  exact total_apy_formula.1 false (fun _ => none) (fun _ => none) exampleRaw "ethereum"
    false _ rfl

/-! ## C2 -/

/-- A raw pool whose only APR item is a negative `STAKING_BOOST`. -/
def negBoostRaw : RawPool :=
  ⟨"pid", "0xabc", "Neg Boost Pool", some 1000000, some 0,
    [⟨"STAKING_BOOST", "Boost", some (-1 / 100), ""⟩], []⟩

/-- Counterexample to C2: a reward item of type boost-emission with a
negative apr yields `bal_rewards_apy = [0, -1]`, and `0 ≤ -1` fails. -/
theorem bal_pair_cex :
    (parse_pool false (fun _ => none) (fun _ => none) (some negBoostRaw) "ethereum"
        false).map (fun p => (p.bal_rewards_apy.headD 0, p.bal_rewards_apy.getD 1 0))
      = some (0, -1)
    ∧ ¬ ((0 : ℚ) ≤ -1) := by
  constructor
  · simp [parse_pool, decomposeAprItems, classifyItem, negBoostRaw]
  · norm_num

/-- C2 as amended: whenever every `STAKING_BOOST` item carries a
nonnegative apr value, the parsed record satisfies
`bal_rewards_apy[0] ≤ bal_rewards_apy[1]`. -/
theorem bal_pair_ordered (auraApi : Bool) (auraLookup : String → Option AuraPool)
    (getPrice : String → Option ℚ) (raw : RawPool) (chain : String)
    (aura_enabled : Bool)
    (h : ∀ it ∈ raw.aprItems, it.type = "STAKING_BOOST" → 0 ≤ it.apr.getD 0) :
    ∀ p, parse_pool auraApi auraLookup getPrice (some raw) chain aura_enabled = some p →
      p.bal_rewards_apy.headD 0 ≤ p.bal_rewards_apy.getD 1 0 := by
  intro p hp
  simp only [parse_pool, Option.some.injEq] at hp
  subst hp
  show (decomposeAprItems raw.aprItems).bal_base ≤
    (decomposeAprItems raw.aprItems).bal_base + (decomposeAprItems raw.aprItems).bal_boost
  have := foldl_boost_nonneg raw.aprItems ⟨0, 0, 0, []⟩ h (le_refl 0)
  unfold decomposeAprItems
  linarith

/-- Witness for C2 on the example items (whose boost item is `+0.03`). -/
theorem bal_pair_ordered_check :
    ∃ p, parse_pool false (fun _ => none) (fun _ => none) (some exampleRaw) "ethereum"
        false = some p ∧
      p.bal_rewards_apy.headD 0 ≤ p.bal_rewards_apy.getD 1 0 := by
  refine ⟨_, rfl, ?_⟩
  refine bal_pair_ordered false (fun _ => none) (fun _ => none) exampleRaw "ethereum"
    false ?_ _ rfl
  intro it hit htype
  simp [exampleRaw, exampleAprItems] at hit
  rcases hit with h | h | h <;> subst h
  · exact absurd htype (by decide)
  · exact absurd htype (by decide)
  · norm_num

/-! ## C3 -/

/-- A raw pool whose only APR item is a negative swap-fee entry. -/
def negFeeRaw : RawPool :=
  ⟨"pid", "0xabc", "Neg Fee Pool", some 1000000, some 0,
    [⟨"SWAP_FEE_24H", "Swap fees", some (-1 / 20), ""⟩], []⟩

/-- The same raw pool with the negative swap-fee item removed. -/
def negFeeRawDropped : RawPool :=
  ⟨"pid", "0xabc", "Neg Fee Pool", some 1000000, some 0, [], []⟩

/-- Counterexample to C3: a swap-fee item with apr `-0.05` is not dropped —
it drives `base_apy` and `total_apy` to `-5`, while removing it leaves both
at `0`. -/
theorem drop_nonpositive_cex :
    (parse_pool false (fun _ => none) (fun _ => none) (some negFeeRaw) "ethereum"
        false).map (fun p => (p.base_apy, p.total_apy)) = some (-5, -5)
    ∧ (parse_pool false (fun _ => none) (fun _ => none) (some negFeeRawDropped) "ethereum"
        false).map (fun p => (p.base_apy, p.total_apy)) = some (0, 0)
    ∧ ((-5 : ℚ) ≠ 0) := by
  refine ⟨?_, ?_, by norm_num⟩
  · simp [parse_pool, decomposeAprItems, classifyItem, otherSum, negFeeRaw]
    norm_num
  · simp [parse_pool, decomposeAprItems, otherSum, negFeeRawDropped]

/-- C3 as amended: a reward item with non-positive value contributes
nothing only when its type is outside the three classified types — removing
such an item leaves the parsed record unchanged — and in the overlay a
reward entry with non-positive rate contributes nothing to any APR sum. -/
theorem drop_nonpositive_amended :
    (∀ (auraApi : Bool) (auraLookup : String → Option AuraPool)
        (getPrice : String → Option ℚ) (raw : RawPool) (chain : String)
        (aura_enabled : Bool) (pre post : List AprItem) (it : AprItem),
        raw.aprItems = pre ++ it :: post →
        it.type ≠ "SWAP_FEE_24H" → it.type ≠ "VEBAL_EMISSIONS" →
        it.type ≠ "STAKING_BOOST" → it.apr.getD 0 ≤ 0 →
        parse_pool auraApi auraLookup getPrice (some raw) chain aura_enabled =
          parse_pool auraApi auraLookup getPrice
            (some { raw with aprItems := pre ++ post }) chain aura_enabled)
    ∧ (∀ (getPrice : String → Option ℚ) (tvl bal_max_apr st : ℚ)
        (pre post : List RewardData) (r : RewardData) (rp : Option String),
        r.rewardRate ≤ 0 →
        calculate_aura_apr getPrice (some ⟨pre ++ r :: post, st, rp⟩) tvl bal_max_apr =
          calculate_aura_apr getPrice (some ⟨pre ++ post, st, rp⟩) tvl bal_max_apr) := by
  constructor
  · intro auraApi auraLookup getPrice raw chain aura_enabled pre post it hitems h1 h2 h3 h4
    have hd : decomposeAprItems raw.aprItems = decomposeAprItems (pre ++ post) := by
      rw [hitems]
      exact decompose_drop pre post it h1 h2 h3 h4
    simp only [parse_pool]
    rw [hd]
  · intro getPrice tvl bal_max_apr st pre post r rp hr
    simp only [calculate_aura_apr]
    rw [List.foldl_append, List.foldl_append, List.foldl_cons,
      auraRewardStep_skip getPrice tvl bal_max_apr _ r hr]

/-- Witness for C3: both removal facts at concrete inputs. -/
theorem drop_nonpositive_amended_check :
    (parse_pool false (fun _ => none) (fun _ => none)
        (some { negFeeRawDropped with
                  aprItems := [] ++ ⟨"AAVE_REWARD", "AAVE", some 0, ""⟩ :: [] })
        "ethereum" false =
      parse_pool false (fun _ => none) (fun _ => none)
        (some { negFeeRawDropped with aprItems := [] ++ [] }) "ethereum" false)
    ∧ calculate_aura_apr (fun _ => none)
        (some ⟨[] ++ (⟨"BAL", 18, 0⟩ : RewardData) :: [], 0, none⟩) 100 5 =
      calculate_aura_apr (fun _ => none) (some ⟨[] ++ [], 0, none⟩) 100 5 := by
  constructor
  · exact drop_nonpositive_amended.1 false (fun _ => none) (fun _ => none)
      _ "ethereum" false [] [] _ rfl (by decide) (by decide) (by decide) (by norm_num)
  · exact drop_nonpositive_amended.2 (fun _ => none) 100 5 0 [] [] _ none le_rfl

/-! ## C7 -/

/-- A reward entry whose symbol is not `BAL` keeps the accumulated
`bal_apr` unchanged. -/
theorem auraRewardStep_bal_of_ne (getPrice : String → Option ℚ) (tvl bal_max_apr : ℚ)
    (s : AuraAprAcc) (r : RewardData) (hne : r.tokenSymbol ≠ "BAL") :
    (auraRewardStep getPrice tvl bal_max_apr s r).bal_apr = s.bal_apr := by
  simp only [auraRewardStep]
  split_ifs <;> simp_all

/-- When the `BAL` price lookup is falsy, the final `bal_apr` of the reward
loop is `bal_max_apr` exactly when some positive-rate `BAL` entry exists. -/
theorem foldl_bal_of_falsyBAL (getPrice : String → Option ℚ) (tvl bal_max_apr : ℚ)
    (hB : isFalsyPrice (getPrice "BAL") = true) :
    ∀ (l : List RewardData) (acc : AuraAprAcc),
      (l.foldl (auraRewardStep getPrice tvl bal_max_apr) acc).bal_apr =
        if l.any (fun r => r.tokenSymbol == "BAL" && decide (0 < r.rewardRate)) = true
          then bal_max_apr else acc.bal_apr := by
  intro l
  induction l with
  | nil => intro acc; simp
  | cons r t ih =>
      intro acc
      rw [List.foldl_cons, ih, List.any_cons]
      by_cases hr : (r.tokenSymbol == "BAL" && decide (0 < r.rewardRate)) = true
      · have hr' := hr
        rw [Bool.and_eq_true] at hr'
        have hsym : r.tokenSymbol = "BAL" := by simpa using hr'.1
        have hrate : 0 < r.rewardRate := by simpa using hr'.2
        have hstep : auraRewardStep getPrice tvl bal_max_apr acc r =
            { acc with bal_apr := bal_max_apr } := by
          rw [auraRewardStep, if_neg (not_le.mpr hrate), hsym, if_pos hB, if_pos rfl]
        rw [hstep, hr]
        simp
      · have hbal : (auraRewardStep getPrice tvl bal_max_apr acc r).bal_apr = acc.bal_apr := by
          by_cases hrate : r.rewardRate ≤ 0
          · rw [auraRewardStep_skip getPrice tvl bal_max_apr acc r hrate]
          · have hsym : r.tokenSymbol ≠ "BAL" := by
              intro hs
              exact hr (by simp [hs, not_le.mp hrate])
            exact auraRewardStep_bal_of_ne getPrice tvl bal_max_apr acc r hsym
        rw [hbal]
        simp [hr]

/-- C7: in the overlay APR computation, a failed (falsy) price lookup for
any symbol other than `BAL` drops that reward entirely, whereas a failed
price lookup for `BAL` makes the `BAL` contribution the caller-supplied
`bal_max_apr` — the substitution is asymmetric. -/
theorem overlay_bal_substitution :
    (∀ (getPrice : String → Option ℚ) (tvl bal_max_apr : ℚ) (s : AuraAprAcc)
        (r : RewardData),
        isFalsyPrice (getPrice r.tokenSymbol) = true → r.tokenSymbol ≠ "BAL" →
        auraRewardStep getPrice tvl bal_max_apr s r = s)
    ∧ (∀ (getPrice : String → Option ℚ) (pool : AuraPool) (tvl bal_max_apr : ℚ),
        isFalsyPrice (getPrice "BAL") = true → 0 < tvl →
        (∃ r ∈ pool.rewardData, r.tokenSymbol = "BAL" ∧ 0 < r.rewardRate) →
        ∃ res, calculate_aura_apr getPrice (some pool) tvl bal_max_apr = some res ∧
          res.bal_apr = bal_max_apr) := by
  constructor
  · intro getPrice tvl bal_max_apr s r hf hne
    simp [auraRewardStep, hf, hne]
  · intro getPrice pool tvl bal_max_apr hf htvl hex
    have hne : ¬ tvl ≤ 0 := not_le.mpr htvl
    obtain ⟨r, hrmem, hsym, hrate⟩ := hex
    have hany : pool.rewardData.any
        (fun x => x.tokenSymbol == "BAL" && decide (0 < x.rewardRate)) = true :=
      List.any_eq_true.mpr ⟨r, hrmem, by simp [hsym, hrate]⟩
    have hbal := foldl_bal_of_falsyBAL getPrice tvl bal_max_apr hf pool.rewardData ⟨0, 0, 0⟩
    rw [if_pos hany] at hbal
    simp only [calculate_aura_apr, if_neg hne]
    exact ⟨_, rfl, hbal⟩

/-- Witness for C7: a non-`BAL` entry dropped and a `BAL` entry substituted
on concrete data with an all-failing price function. -/
theorem overlay_bal_substitution_check :
    (auraRewardStep (fun _ => none) 1 7 ⟨1, 2, 3⟩ ⟨"AURA", 18, 1⟩ = ⟨1, 2, 3⟩)
    ∧ (∃ res, calculate_aura_apr (fun _ => none)
        (some ⟨[⟨"BAL", 18, 1⟩], 0, none⟩) 1 7 = some res ∧ res.bal_apr = 7) := by
  constructor
  · exact overlay_bal_substitution.1 (fun _ => none) 1 7 ⟨1, 2, 3⟩ ⟨"AURA", 18, 1⟩
      rfl (by decide)
  · exact overlay_bal_substitution.2 (fun _ => none) ⟨[⟨"BAL", 18, 1⟩], 0, none⟩ 1 7
      rfl (by norm_num) ⟨⟨"BAL", 18, 1⟩, by simp, rfl, by norm_num⟩

/-! ## C1 -/

/-- Counterexample to C1, in both directions.  First input: an Aura pool is
matched but `tvl = 0`, so the overlay APR call returns empty and `aura_apy`
stays absent while `aura_tvl`, `aura_boost` and `aura_staking_contract` are
all set.  Second input: `tvl > 0` but the matched Aura pool has no
`rewardPool` field, so `aura_apy` is present while `aura_staking_contract`
is absent. -/
theorem aura_all_or_nothing_cex :
    ((parse_pool true (fun _ => some ⟨[], 0, some "0xreward"⟩) (fun _ => none)
        (some ⟨"pid", "0xabc", "Pool A", some 0, some 0, [], []⟩) "ethereum" true).map
      (fun p => (p.aura_apy, p.aura_tvl, p.aura_boost, p.aura_staking_contract))
      = some (none, some 0, some (5 / 2), some "0xreward"))
    ∧ ((parse_pool true (fun _ => some ⟨[], 0, none⟩) (fun _ => none)
        (some ⟨"pid", "0xabc", "Pool B", some 100, some 0, [], []⟩) "ethereum" true).map
      (fun p => (p.aura_apy, p.aura_tvl, p.aura_boost, p.aura_staking_contract))
      = some (some 0, some 0, some (5 / 2), none))
    ∧ (some (5 / 2 : ℚ) ≠ none) := by
  refine ⟨?_, ?_, by simp⟩
  · simp [parse_pool, calculate_aura_apr, get_aura_tvl, decomposeAprItems, otherSum]
  · simp [parse_pool, calculate_aura_apr, get_aura_tvl, decomposeAprItems, otherSum]

/-- C1 as amended: the four overlay fields are present together or absent
together for every parse in which a matched Aura pool implies both a
positive `tvl` and a present `rewardPool` field. -/
theorem aura_all_or_nothing (auraApi : Bool) (auraLookup : String → Option AuraPool)
    (getPrice : String → Option ℚ) (raw : RawPool) (chain : String)
    (aura_enabled : Bool)
    (hsafe : ∀ ap, auraLookup (pyLower raw.address) = some ap →
      0 < raw.totalLiquidity.getD 0 ∧ ap.rewardPool ≠ none) :
    ∀ p, parse_pool auraApi auraLookup getPrice (some raw) chain aura_enabled = some p →
      (p.aura_apy = none ∧ p.aura_tvl = none ∧ p.aura_boost = none ∧
        p.aura_staking_contract = none)
      ∨ (p.aura_apy ≠ none ∧ p.aura_tvl ≠ none ∧ p.aura_boost ≠ none ∧
        p.aura_staking_contract ≠ none) := by
  intro p hp
  simp only [parse_pool, Option.some.injEq] at hp
  subst hp
  by_cases hflag : (auraApi && aura_enabled) = true
  · cases hlk : auraLookup (pyLower raw.address) with
    | none => left; simp [hflag, hlk]
    | some ap =>
        right
        obtain ⟨htvl, hrp⟩ := hsafe ap hlk
        have hne : ¬ raw.totalLiquidity.getD 0 ≤ 0 := not_le.mpr htvl
        refine ⟨?_, ?_, ?_, ?_⟩ <;>
          simp [hflag, hlk, calculate_aura_apr, hne, hrp]
  · left
    simp [hflag]

/-- Witness for C1 on a matched pool with positive tvl and a present
reward-pool address: all four overlay fields are present. -/
theorem aura_all_or_nothing_check :
    ∃ p, parse_pool true (fun _ => some ⟨[], 0, some "0xreward"⟩) (fun _ => none)
        (some ⟨"pid", "0xabc", "Pool C", some 100, some 0, [], []⟩) "ethereum" true
        = some p ∧
      ((p.aura_apy = none ∧ p.aura_tvl = none ∧ p.aura_boost = none ∧
        p.aura_staking_contract = none)
      ∨ (p.aura_apy ≠ none ∧ p.aura_tvl ≠ none ∧ p.aura_boost ≠ none ∧
        p.aura_staking_contract ≠ none)) := by
  refine ⟨_, rfl, ?_⟩
  refine aura_all_or_nothing true (fun _ => some ⟨[], 0, some "0xreward"⟩) (fun _ => none)
    ⟨"pid", "0xabc", "Pool C", some 100, some 0, [], []⟩ "ethereum" true ?_ _ rfl
  intro ap h
  injection h with h
  subst h
  exact ⟨by norm_num [Option.getD_some], by simp⟩

/-! ## C4: slug lemmas -/

/-- Characters a slug may contain: `[a-z0-9]` or the underscore. -/
def okSlugChar (c : Char) : Bool := isLowerAlnum c || c == '_'

/-- `Char.toLower` fixes every character a slug may contain. -/
theorem toLower_eq_self {c : Char} (h : okSlugChar c = true) : c.toLower = c := by
  simp only [okSlugChar, Bool.or_eq_true, beq_iff_eq] at h
  rcases h with h | h
  · unfold Char.toLower
    simp only [isLowerAlnum, Bool.or_eq_true, Bool.and_eq_true, decide_eq_true_eq] at h
    have e1 : ('a').val.toBitVec.toNat = 97 := rfl
    have e2 : ('z').val.toBitVec.toNat = 122 := rfl
    have e3 : ('0').val.toBitVec.toNat = 48 := rfl
    have e4 : ('9').val.toBitVec.toNat = 57 := rfl
    have hn : ¬ (c.toNat ≥ 65 ∧ c.toNat ≤ 90) := by
      rcases h with ⟨h1, h2⟩ | ⟨h1, h2⟩ <;>
      · simp only [Char.le_def, UInt32.le_def, BitVec.le_def, Char.toNat, UInt32.toNat,
          e1, e2, e3, e4] at h1 h2 ⊢
        omega
    simp [hn]
  · subst h
    decide

/-- Every character produced by `mapNonAlnum` is a slug character. -/
theorem mapNonAlnum_ok (l : List Char) : ∀ c ∈ mapNonAlnum l, okSlugChar c = true := by
  intro c hc
  simp only [mapNonAlnum, List.mem_map] at hc
  obtain ⟨a, _, ha⟩ := hc
  by_cases h : isLowerAlnum a = true
  · rw [if_pos h] at ha
    subst ha
    simp [okSlugChar, h]
  · rw [if_neg h] at ha
    subst ha
    decide

/-- `squeezeUnd` only keeps characters of its input. -/
theorem mem_of_mem_squeezeUnd : ∀ {l : List Char} {c : Char}, c ∈ squeezeUnd l → c ∈ l := by
  intro l
  induction l with
  | nil => intro c h; simp [squeezeUnd] at h
  | cons a t ih =>
      cases t with
      | nil => intro c h; simpa [squeezeUnd] using h
      | cons b r =>
          intro c h
          by_cases hab : a = '_' ∧ b = '_'
          · rw [show squeezeUnd (a :: b :: r) = squeezeUnd (b :: r) by
              simp only [squeezeUnd, if_pos hab]] at h
            exact List.mem_cons_of_mem a (ih h)
          · rw [show squeezeUnd (a :: b :: r) = a :: squeezeUnd (b :: r) by
              simp only [squeezeUnd, if_neg hab]] at h
            rcases List.mem_cons.mp h with h | h
            · simp [h]
            · exact List.mem_cons_of_mem a (ih h)

/-- `stripUnd` only keeps characters of its input. -/
theorem stripUnd_subset (l : List Char) : stripUnd l ⊆ l := by
  intro c hc
  unfold stripUnd at hc
  rw [List.mem_reverse] at hc
  have hc2 := (List.dropWhile_suffix isUnd).subset hc
  rw [List.mem_reverse] at hc2
  exact (List.dropWhile_suffix isUnd).subset hc2

/-- `squeezeUnd` preserves heads. -/
theorem squeezeUnd_head : ∀ (rest : List Char) (b : Char),
    ∃ s, squeezeUnd (b :: rest) = b :: s := by
  intro rest
  induction rest with
  | nil => intro b; exact ⟨[], rfl⟩
  | cons c r ih =>
      intro b
      by_cases h : b = '_' ∧ c = '_'
      · obtain ⟨s, hs⟩ := ih c
        refine ⟨s, ?_⟩
        have heq : squeezeUnd (b :: c :: r) = squeezeUnd (c :: r) := by
          simp only [squeezeUnd, if_pos h]
        rw [heq, hs, h.1, h.2]
      · exact ⟨squeezeUnd (c :: r), by simp only [squeezeUnd, if_neg h]⟩

/-- No two adjacent underscores survive in a slug. -/
def undFree (a b : Char) : Prop := ¬ (a = '_' ∧ b = '_')

/-- The output of `squeezeUnd` has no two adjacent underscores. -/
theorem squeezeUnd_chain : ∀ l : List Char, List.Chain' undFree (squeezeUnd l) := by
  intro l
  induction l with
  | nil => exact List.chain'_nil
  | cons a t ih =>
      cases t with
      | nil => exact List.chain'_singleton a
      | cons b r =>
          by_cases h : a = '_' ∧ b = '_'
          · have heq : squeezeUnd (a :: b :: r) = squeezeUnd (b :: r) := by
              simp only [squeezeUnd, if_pos h]
            rw [heq]; exact ih
          · have heq : squeezeUnd (a :: b :: r) = a :: squeezeUnd (b :: r) := by
              simp only [squeezeUnd, if_neg h]
            obtain ⟨s, hs⟩ := squeezeUnd_head r b
            rw [heq, hs]
            rw [hs] at ih
            exact List.chain'_cons.mpr ⟨h, ih⟩

/-- The adjacency property survives list reversal. -/
theorem chain'_undFree_reverse {l : List Char} (h : List.Chain' undFree l) :
    List.Chain' undFree l.reverse := by
  rw [List.chain'_reverse]
  exact h.imp fun a b hab hba => hab ⟨hba.2, hba.1⟩

/-- The adjacency property survives stripping. -/
theorem chain'_undFree_stripUnd {l : List Char} (h : List.Chain' undFree l) :
    List.Chain' undFree (stripUnd l) :=
  chain'_undFree_reverse
    ((chain'_undFree_reverse (h.suffix (List.dropWhile_suffix _))).suffix
      (List.dropWhile_suffix _))

/-- `squeezeUnd` fixes any list with no two adjacent underscores. -/
theorem squeezeUnd_eq_self : ∀ {l : List Char}, List.Chain' undFree l → squeezeUnd l = l := by
  intro l
  induction l with
  | nil => intro _; rfl
  | cons a t ih =>
      cases t with
      | nil => intro _; rfl
      | cons b r =>
          intro h
          obtain ⟨hab, ht⟩ := List.chain'_cons.mp h
          have heq : squeezeUnd (a :: b :: r) = a :: squeezeUnd (b :: r) := by
            simp only [squeezeUnd, if_neg hab]
          rw [heq, ih ht]

/-- `dropWhile` fixes a list whose head fails the predicate. -/
theorem dropWhile_eq_self_of_head {p : Char → Bool} (l : List Char)
    (h : ∀ c, l.head? = some c → p c = false) : l.dropWhile p = l := by
  cases l with
  | nil => rfl
  | cons a t => exact List.dropWhile_cons_of_neg (by simp [h a rfl])

/-- The head surviving `dropWhile` fails the predicate. -/
theorem head?_dropWhile_ne {p : Char → Bool} (w : List Char) (c : Char)
    (h : (w.dropWhile p).head? = some c) : p c = false := by
  have hh := List.head?_dropWhile_not p w
  rw [h] at hh
  exact hh

/-- `dropWhile` keeps the last element of its input (when anything is
left). -/
theorem getLast?_dropWhile {p : Char → Bool} (w : List Char) (c : Char)
    (h : (w.dropWhile p).getLast? = some c) : w.getLast? = some c := by
  obtain ⟨t, ht⟩ := List.dropWhile_suffix p (l := w)
  rw [← ht, List.getLast?_append, h]
  rfl

/-- Stripped lists do not start with an underscore. -/
theorem stripUnd_head_ne {l : List Char} : ∀ c, (stripUnd l).head? = some c → c ≠ '_' := by
  intro c hc
  unfold stripUnd at hc
  rw [List.head?_reverse] at hc
  have h2 := getLast?_dropWhile _ c hc
  rw [List.getLast?_reverse] at h2
  have h3 := head?_dropWhile_ne _ c h2
  simpa [isUnd] using h3

/-- Stripped lists do not end with an underscore. -/
theorem stripUnd_last_ne {l : List Char} : ∀ c, (stripUnd l).getLast? = some c → c ≠ '_' := by
  intro c hc
  unfold stripUnd at hc
  rw [List.getLast?_reverse] at hc
  have h3 := head?_dropWhile_ne _ c hc
  simpa [isUnd] using h3

/-- `stripUnd` fixes a list with no underscore at either end. -/
theorem stripUnd_eq_self {l : List Char}
    (h1 : ∀ c, l.head? = some c → c ≠ '_') (h2 : ∀ c, l.getLast? = some c → c ≠ '_') :
    stripUnd l = l := by
  unfold stripUnd
  have e1 : l.dropWhile isUnd = l :=
    dropWhile_eq_self_of_head l (fun c hc => by simpa [isUnd] using h1 c hc)
  rw [e1]
  have e2 : l.reverse.dropWhile isUnd = l.reverse :=
    dropWhile_eq_self_of_head l.reverse (fun c hc => by
      rw [List.head?_reverse] at hc
      simpa [isUnd] using h2 c hc)
  rw [e2, List.reverse_reverse]

/-- `mapNonAlnum` after lowercasing fixes a list of slug characters. -/
theorem mapNonAlnum_map_toLower_eq_self : ∀ {l : List Char},
    (∀ c ∈ l, okSlugChar c = true) → mapNonAlnum (l.map Char.toLower) = l := by
  intro l
  induction l with
  | nil => intro _; rfl
  | cons a t ih =>
      intro h
      have ha := h a (List.mem_cons_self a t)
      have hl : a.toLower = a := toLower_eq_self ha
      show ((a.toLower :: t.map Char.toLower).map fun c => if isLowerAlnum c then c else '_')
          = a :: t
      rw [List.map_cons, hl]
      have htail : mapNonAlnum (t.map Char.toLower) = t :=
        ih (fun c hc => h c (List.mem_cons_of_mem a hc))
      rw [show (t.map Char.toLower).map (fun c => if isLowerAlnum c then c else '_')
          = mapNonAlnum (t.map Char.toLower) from rfl, htail]
      by_cases hx : isLowerAlnum a = true
      · rw [if_pos hx]
      · rw [if_neg hx]
        simp only [okSlugChar, Bool.or_eq_true, beq_iff_eq] at ha
        rcases ha with ha | ha
        · exact absurd ha hx
        · rw [ha]

/-- Every character of a slug is a slug character. -/
theorem slug_chars_ok (s : String) : ∀ c ∈ (slugify s).data, okSlugChar c = true := by
  intro c hc
  have h1 : c ∈ squeezeUnd (mapNonAlnum (s.data.map Char.toLower)) :=
    stripUnd_subset _ hc
  exact mapNonAlnum_ok _ c (mem_of_mem_squeezeUnd h1)

/-- Slug derivation is idempotent. -/
theorem slugify_idempotent (s : String) : slugify (slugify s) = slugify s := by
  have hok : ∀ c ∈ (slugify s).data, okSlugChar c = true := slug_chars_ok s
  show String.mk (stripUnd (squeezeUnd (mapNonAlnum ((slugify s).data.map Char.toLower))))
      = slugify s
  rw [mapNonAlnum_map_toLower_eq_self hok]
  have hnd : List.Chain' undFree (slugify s).data :=
    chain'_undFree_stripUnd (squeezeUnd_chain _)
  rw [squeezeUnd_eq_self hnd]
  have hfix : stripUnd (slugify s).data = (slugify s).data :=
    stripUnd_eq_self (fun c hc => stripUnd_head_ne c hc) (fun c hc => stripUnd_last_ne c hc)
  rw [show stripUnd (slugify s).data = (slugify s).data from hfix]

/-! ## C4 -/

/-- Counterexample to C4: the chain is not lowercased by the key
derivation, so a record whose chain reads `"Ethereum"` keys as
`"Ethereum_wrapped_eth_usdc"`, not the claimed
`"ethereum_wrapped_eth_usdc"`. -/
theorem pool_key_cex :
    generate_pool_key "Ethereum" "Wrapped  ETH / USDC!!" = "Ethereum_wrapped_eth_usdc"
    ∧ "Ethereum_wrapped_eth_usdc" ≠ "ethereum_wrapped_eth_usdc" := by
  constructor
  · decide
  · decide

/-- C4 as amended: the key is the chain used verbatim, joined by an
underscore to the slugified name; on an already-lowercase chain the spec's
example value holds, and re-deriving from a derived key's parts leaves the
key unchanged (the slug step is idempotent). -/
theorem pool_key_amended :
    (∀ chain name : String, generate_pool_key chain name = chain ++ "_" ++ slugify name)
    ∧ generate_pool_key "ethereum" "Wrapped  ETH / USDC!!" = "ethereum_wrapped_eth_usdc"
    ∧ (∀ chain name : String,
        generate_pool_key chain (slugify name) = generate_pool_key chain name) := by
  refine ⟨fun chain name => rfl, by decide, fun chain name => ?_⟩
  unfold generate_pool_key
  rw [slugify_idempotent]

/-! ## C5 -/

/-- C5: for a non-empty record list of well-formed records
(`bal_rewards_apy` an ordered pair, the aura fields coherent as the data
model requires), `save` writes every record and `load` reproduces each
record's numeric fields rounded exactly as serialized: money (`tvl`,
`aura_tvl`) to 2 decimals, percentages (`base_apy`, the `bal_rewards` pair,
`total_apy`, `aura_apy`) to 4 decimals. -/
theorem save_load_roundtrip (l : List PoolData) (hne : l ≠ [])
    (hwf : ∀ p ∈ l, p.bal_rewards_apy.length = 2 ∧ (p.aura_apy = none → p.aura_tvl = none)) :
    savePools l = some (l.map pool_to_json)
    ∧ loadPools (l.map pool_to_json) = l.map (fun p => json_to_pool (pool_to_json p))
    ∧ ∀ p ∈ l,
        (json_to_pool (pool_to_json p)).tvl = roundTo 2 p.tvl
        ∧ (json_to_pool (pool_to_json p)).base_apy = roundTo 4 p.base_apy
        ∧ (json_to_pool (pool_to_json p)).bal_rewards_apy
            = p.bal_rewards_apy.map (roundTo 4)
        ∧ (json_to_pool (pool_to_json p)).total_apy = roundTo 4 p.total_apy
        ∧ (json_to_pool (pool_to_json p)).aura_apy = p.aura_apy.map (roundTo 4)
        ∧ (json_to_pool (pool_to_json p)).aura_tvl = p.aura_tvl.map (roundTo 2) := by
  refine ⟨by simp [savePools, hne], by simp [loadPools, List.map_map], ?_⟩
  intro p hp
  obtain ⟨hlen, haura⟩ := hwf p hp
  obtain ⟨a, b, hab⟩ := List.length_eq_two.mp hlen
  refine ⟨rfl, rfl, ?_, rfl, ?_, ?_⟩
  · rw [hab]
    simp [json_to_pool, pool_to_json, hab]
  · cases hap : p.aura_apy with
    | none => simp [json_to_pool, pool_to_json, hap]
    | some x => simp [json_to_pool, pool_to_json, hap]
  · cases hap : p.aura_apy with
    | none => simp [json_to_pool, pool_to_json, hap, haura hap]
    | some x => simp [json_to_pool, pool_to_json, hap]

/-- A well-formed record used to instantiate the round-trip theorem. -/
def rtPool : PoolData :=
  ⟨"Round Trip Pool", "ethereum", "0xabc", "pid", 3 / 2, 1, [1, 2], [("X", 1)], 7,
    ["A", "B"], ["A: 50.0%", "B: 50.0%"], [1, 2], [0, 0],
    some 1, some 2, some (5 / 2), some "0xreward"⟩

/-- Witness for C5 on a one-record list. -/
theorem save_load_roundtrip_check :
    savePools [rtPool] = some [pool_to_json rtPool]
    ∧ (json_to_pool (pool_to_json rtPool)).tvl = roundTo 2 rtPool.tvl
    ∧ (json_to_pool (pool_to_json rtPool)).bal_rewards_apy
        = rtPool.bal_rewards_apy.map (roundTo 4)
    ∧ (json_to_pool (pool_to_json rtPool)).aura_tvl = rtPool.aura_tvl.map (roundTo 2) := by
  have h := save_load_roundtrip [rtPool] (by simp)
    (fun p hp => by
      rw [List.mem_singleton] at hp
      subst hp
      exact ⟨rfl, fun hc => by simp [rtPool] at hc⟩)
  have h4 := h.2.2 rtPool (List.mem_singleton.mpr rfl)
  exact ⟨by simpa using h.1, h4.1, h4.2.2.1, h4.2.2.2.2.2⟩

/-! ## C6: history lemmas -/

/-- Updating a key makes its looked-up value the update of the previous
one. -/
theorem lookupAssoc_updateAssoc_self {α : Type} (m : List (String × α)) (k : String)
    (f : Option α → α) :
    lookupAssoc (updateAssoc m k f) k = some (f (lookupAssoc m k)) := by
  induction m with
  | nil => simp [updateAssoc, lookupAssoc]
  | cons kv rest ih =>
      obtain ⟨k0, v⟩ := kv
      by_cases h : k0 = k
      · subst h
        simp [updateAssoc, lookupAssoc]
      · simp [updateAssoc, lookupAssoc, h, ih]

/-- Updating one key leaves every other key's looked-up value unchanged. -/
theorem lookupAssoc_updateAssoc_ne {α : Type} (m : List (String × α)) (k k' : String)
    (f : Option α → α) (h : k' ≠ k) :
    lookupAssoc (updateAssoc m k f) k' = lookupAssoc m k' := by
  have hne : ¬ k = k' := fun he => h he.symm
  induction m with
  | nil => simp [updateAssoc, lookupAssoc, hne]
  | cons kv rest ih =>
      obtain ⟨k0, v⟩ := kv
      by_cases h0 : k0 = k
      · subst h0
        simp [updateAssoc, lookupAssoc, hne]
      · simp only [updateAssoc, if_neg h0]
        by_cases h1 : k0 = k'
        · simp [lookupAssoc, h1]
        · simp [lookupAssoc, h1, ih]

/-- The series of the touched key after one `append_history` record body:
previous snapshots (empty for a fresh key), one appended entry, then the
trim. -/
theorem appendOnePool_series (ts : String) (max_snapshots : Option ℕ)
    (pools : List (String × PoolHistorySlot)) (p : PoolData) :
    (lookupAssoc (appendOnePool ts max_snapshots pools p)
        (generate_pool_key p.chain p.name)).map PoolHistorySlot.snapshots
      = some (trimSnapshots max_snapshots
          (((lookupAssoc pools (generate_pool_key p.chain p.name)).map
              PoolHistorySlot.snapshots).getD []
            ++ [mkSnapshot ts p])) := by
  unfold appendOnePool
  rw [lookupAssoc_updateAssoc_self]
  cases h : lookupAssoc pools (generate_pool_key p.chain p.name) with
  | none => simp
  | some slot => simp

/-- Series of untouched keys survive the per-record body unchanged. -/
theorem appendOnePool_lookup_ne (ts : String) (max_snapshots : Option ℕ)
    (pools : List (String × PoolHistorySlot)) (p : PoolData) (k' : String)
    (h : generate_pool_key p.chain p.name ≠ k') :
    lookupAssoc (appendOnePool ts max_snapshots pools p) k' = lookupAssoc pools k' :=
  lookupAssoc_updateAssoc_ne _ _ _ _ (fun he => h he.symm)

/-- Series of untouched keys survive the whole record loop unchanged. -/
theorem foldl_appendOnePool_lookup_ne (ts : String) (max_snapshots : Option ℕ)
    (k' : String) :
    ∀ (l : List PoolData) (pools : List (String × PoolHistorySlot)),
      (∀ p ∈ l, generate_pool_key p.chain p.name ≠ k') →
      lookupAssoc (l.foldl (appendOnePool ts max_snapshots) pools) k'
        = lookupAssoc pools k' := by
  intro l
  induction l with
  | nil => intro pools _; rfl
  | cons p t ih =>
      intro pools h
      rw [List.foldl_cons, ih _ (fun q hq => h q (List.mem_cons_of_mem p hq)),
        appendOnePool_lookup_ne ts max_snapshots pools p k' (h p (List.mem_cons_self p t))]

/-- The pools map of the iterated one-record run is the iterated
per-record body. -/
theorem appendRuns_pools (r : PoolData) :
    ∀ (tss : List String) (h : History),
      (tss.foldl (fun h ts => append_history [r] none ts h) h).pools
        = tss.foldl (fun ps ts => appendOnePool ts none ps r) h.pools := by
  intro tss
  induction tss with
  | nil => intro h; rfl
  | cons ts tss ih =>
      intro h
      rw [List.foldl_cons, List.foldl_cons, ih]
      rfl

/-- Iterating the one-record body accumulates snapshots in call order. -/
theorem foldl_appendOnePool_series (r : PoolData) :
    ∀ (tss : List String) (pools : List (String × PoolHistorySlot)),
      (lookupAssoc (tss.foldl (fun ps ts => appendOnePool ts none ps r) pools)
          (generate_pool_key r.chain r.name)).map PoolHistorySlot.snapshots
        = if tss = [] then
            (lookupAssoc pools (generate_pool_key r.chain r.name)).map
              PoolHistorySlot.snapshots
          else some
            (((lookupAssoc pools (generate_pool_key r.chain r.name)).map
                PoolHistorySlot.snapshots).getD []
              ++ tss.map (fun ts => mkSnapshot ts r)) := by
  intro tss
  induction tss with
  | nil => intro pools; simp
  | cons ts tss ih =>
      intro pools
      rw [List.foldl_cons, ih, if_neg (List.cons_ne_nil ts tss)]
      have hone := appendOnePool_series ts none pools r
      by_cases htss : tss = []
      · subst htss
        rw [if_pos rfl, hone]
        simp [trimSnapshots]
      · rw [if_neg htss, hone]
        simp [trimSnapshots, List.append_assoc]

/-! ## C6 -/

/-- C6: N one-record appends under the same key leave exactly those N
snapshots in call order; a further append with `max_snapshots = K < N + 1`
leaves exactly the most recent K entries (oldest dropped first); and a
record loop never touches the series of keys outside it. -/
theorem history_append_monotonic :
    (∀ (r : PoolData) (ts0 : String) (tss : List String), tss ≠ [] →
      (lookupAssoc ((tss.foldl (fun h ts => append_history [r] none ts h)
          (empty_history ts0)).pools) (generate_pool_key r.chain r.name)).map
          PoolHistorySlot.snapshots
        = some (tss.map (fun ts => mkSnapshot ts r)))
    ∧ (∀ (r : PoolData) (ts0 ts' : String) (tss : List String) (K : ℕ),
        1 ≤ K → K < tss.length + 1 →
        (lookupAssoc ((append_history [r] (some K) ts'
            (tss.foldl (fun h ts => append_history [r] none ts h)
              (empty_history ts0))).pools) (generate_pool_key r.chain r.name)).map
            PoolHistorySlot.snapshots
          = some ((tss.map (fun ts => mkSnapshot ts r) ++ [mkSnapshot ts' r]).drop
              (tss.length + 1 - K))
        ∧ ((tss.map (fun ts => mkSnapshot ts r) ++ [mkSnapshot ts' r]).drop
            (tss.length + 1 - K)).length = K)
    ∧ (∀ (l : List PoolData) (max_snapshots : Option ℕ) (ts : String) (h : History)
        (k' : String), (∀ p ∈ l, generate_pool_key p.chain p.name ≠ k') →
        lookupAssoc ((append_history l max_snapshots ts h).pools) k'
          = lookupAssoc h.pools k') := by
  have hseries : ∀ (r : PoolData) (ts0 : String) (tss : List String), tss ≠ [] →
      (lookupAssoc ((tss.foldl (fun h ts => append_history [r] none ts h)
          (empty_history ts0)).pools) (generate_pool_key r.chain r.name)).map
          PoolHistorySlot.snapshots = some (tss.map (fun ts => mkSnapshot ts r)) := by
    intro r ts0 tss htss
    rw [appendRuns_pools, foldl_appendOnePool_series r tss (empty_history ts0).pools,
      if_neg htss]
    simp [empty_history, lookupAssoc]
  refine ⟨hseries, ?_, ?_⟩
  · intro r ts0 ts' tss K hK1 hK2
    have htss : tss ≠ [] := List.length_pos.mp (by omega)
    have hpools : (append_history [r] (some K) ts'
        (tss.foldl (fun h ts => append_history [r] none ts h) (empty_history ts0))).pools
        = appendOnePool ts' (some K)
            ((tss.foldl (fun h ts => append_history [r] none ts h)
              (empty_history ts0)).pools) r := by
      simp [append_history]
    have hslen : (tss.map (fun ts => mkSnapshot ts r) ++ [mkSnapshot ts' r]).length
        = tss.length + 1 := by simp
    constructor
    · rw [hpools, appendOnePool_series, hseries r ts0 tss htss]
      simp only [trimSnapshots, Option.getD_some]
      rw [if_pos ⟨by omega, by rw [hslen]; omega⟩, hslen]
    · rw [List.length_drop, hslen]
      omega
  · intro l max_snapshots ts h k' hk
    by_cases hl : l = []
    · simp [append_history, hl]
    · simp only [append_history, if_neg hl]
      exact foldl_appendOnePool_lookup_ne ts max_snapshots k' l h.pools hk

/-- The record used to instantiate the history theorem. -/
def histPool : PoolData :=
  ⟨"Hist Pool", "ethereum", "0xabc", "pid", 1, 1, [1, 1], [], 1,
    [], [], [], [], none, none, none, none⟩

/-- Witness for C6: three appends, then a trim to the most recent two, and
an untouched key. -/
theorem history_append_monotonic_check :
    (lookupAssoc ((["t1", "t2", "t3"].foldl
        (fun h ts => append_history [histPool] none ts h)
        (empty_history "t0")).pools) (generate_pool_key histPool.chain histPool.name)).map
        PoolHistorySlot.snapshots
      = some (["t1", "t2", "t3"].map (fun ts => mkSnapshot ts histPool))
    ∧ (lookupAssoc ((append_history [histPool] (some 2) "t4"
          (["t1", "t2", "t3"].foldl (fun h ts => append_history [histPool] none ts h)
            (empty_history "t0"))).pools) (generate_pool_key histPool.chain histPool.name)).map
        PoolHistorySlot.snapshots
      = some ((["t1", "t2", "t3"].map (fun ts => mkSnapshot ts histPool)
          ++ [mkSnapshot "t4" histPool]).drop 2)
    ∧ lookupAssoc ((append_history [histPool] (some 2) "t4" (empty_history "t0")).pools)
        "other" = lookupAssoc (empty_history "t0").pools "other" := by
  refine ⟨?_, ?_, ?_⟩
  · exact history_append_monotonic.1 histPool "t0" ["t1", "t2", "t3"] (by simp)
  · simpa using (history_append_monotonic.2.1 histPool "t0" "t4" ["t1", "t2", "t3"] 2
      (by norm_num) (by norm_num)).1
  · exact history_append_monotonic.2.2 [histPool] (some 2) "t4" (empty_history "t0")
      "other" (by
        intro p hp
        rw [List.mem_singleton] at hp
        subst hp
        decide)

/-! ## C10: price-cache lemmas -/

/-- Only the CoinGecko id `balancer` maps to the symbol `BAL`. -/
theorem mem_idToSymbols_BAL {cg : String} (h : "BAL" ∈ idToSymbols cg) :
    cg = "balancer" := by
  simp only [idToSymbols, List.mem_filterMap] at h
  obtain ⟨a, ha, hfa⟩ := h
  simp only [COINGECKO_IDS, List.mem_cons, List.not_mem_nil, or_false] at ha
  rcases ha with ha | ha | ha | ha | ha | ha <;> subst ha <;>
    split_ifs at hfa with hcg <;>
      first
        | exact hcg.symm
        | exact absurd (Option.some.inj hfa) (by decide)

/-- Dict assignment of one key leaves other keys' lookups unchanged. -/
theorem lookupAssoc_insertAssoc_ne {α : Type} (c : List (String × α)) (k k' : String)
    (v : α) (h : k' ≠ k) :
    lookupAssoc (insertAssoc c k v) k' = lookupAssoc c k' := by
  have hne : ¬ k = k' := fun he => h he.symm
  induction c with
  | nil => simp [insertAssoc, lookupAssoc, hne]
  | cons kv rest ih =>
      obtain ⟨k0, v0⟩ := kv
      by_cases h0 : k0 = k
      · subst h0
        simp [insertAssoc, lookupAssoc, hne]
      · simp only [insertAssoc, if_neg h0]
        by_cases h1 : k0 = k'
        · simp [lookupAssoc, h1]
        · simp [lookupAssoc, h1, ih]

/-- Inserting a batch of symbols leaves an absent key's lookup unchanged. -/
theorem lookupAssoc_foldl_insert_ne {α : Type} (v : α) (k' : String) :
    ∀ (syms : List String) (c : List (String × α)), k' ∉ syms →
      lookupAssoc (syms.foldl (fun c s => insertAssoc c s v) c) k' = lookupAssoc c k' := by
  intro syms
  induction syms with
  | nil => intro c _; rfl
  | cons s t ih =>
      intro c h
      rw [List.foldl_cons, ih _ (fun hm => h (List.mem_cons_of_mem s hm)),
        lookupAssoc_insertAssoc_ne c s k' v (fun he => h (by simp [he]))]

/-- If every oracle entry for the `balancer` id carries a missing or zero
price, the fetched cache never holds the key `BAL`. -/
theorem foldl_applyPriceEntry_no_BAL :
    ∀ (data : List (String × Option ℚ)) (c : List (String × ℚ)),
      (∀ e ∈ data, e.1 = "balancer" → e.2 = none ∨ e.2 = some 0) →
      lookupAssoc c "BAL" = none →
      lookupAssoc (data.foldl applyPriceEntry c) "BAL" = none := by
  intro data
  induction data with
  | nil => intro c _ hc; exact hc
  | cons e rest ih =>
      intro c hd hc
      rw [List.foldl_cons]
      refine ih _ (fun x hx => hd x (List.mem_cons_of_mem e hx)) ?_
      obtain ⟨cg, price?⟩ := e
      cases price? with
      | none => exact hc
      | some price =>
          by_cases hoc : price ≠ 0 ∧ idToSymbols cg ≠ []
          · by_cases hcg : cg = "balancer"
            · rcases hd (cg, some price) (List.mem_cons_self _ _) hcg with h | h
              · exact absurd h (by simp)
              · exact absurd (Option.some.inj h) hoc.1
            · have hni : "BAL" ∉ idToSymbols cg := fun hm => hcg (mem_idToSymbols_BAL hm)
              show lookupAssoc (applyPriceEntry c (cg, some price)) "BAL" = none
              simp only [applyPriceEntry, if_pos hoc]
              rw [lookupAssoc_foldl_insert_ne price "BAL" (idToSymbols cg) c hni]
              exact hc
          · show lookupAssoc (applyPriceEntry c (cg, some price)) "BAL" = none
            simp only [applyPriceEntry, if_neg hoc]
            exact hc

/-- Under the same oracle condition, `get_token_price` reports `BAL` as
absent (the uppercase retry hits the same missing key). -/
theorem get_token_price_BAL_none (data : List (String × Option ℚ))
    (hd : ∀ e ∈ data, e.1 = "balancer" → e.2 = none ∨ e.2 = some 0) :
    get_token_price (fetch_all_prices data) "BAL" = none := by
  have h : lookupAssoc (fetch_all_prices data) "BAL" = none :=
    foldl_applyPriceEntry_no_BAL data [] hd rfl
  unfold get_token_price
  rw [show pyUpper "BAL" = "BAL" by decide, h]

/-! ## C10 -/

/-- C10: an oracle price of exactly 0 behaves like a failed lookup — the
cache step ignores it exactly as it ignores a missing price, the whole
fetch is unchanged by such an entry, `get_token_price` reports the symbol
absent, and consequently a zero-priced `BAL` triggers the `bal_max_apr`
substitution in the overlay while a failed lookup on any other symbol
drops that reward. -/
theorem zero_price_like_missing :
    (∀ (cache : List (String × ℚ)) (cg : String),
        applyPriceEntry cache (cg, some 0) = cache
        ∧ applyPriceEntry cache (cg, none) = cache)
    ∧ (∀ (pre post : List (String × Option ℚ)) (cg : String),
        fetch_all_prices (pre ++ (cg, some 0) :: post) = fetch_all_prices (pre ++ post))
    ∧ (∀ data : List (String × Option ℚ),
        (∀ e ∈ data, e.1 = "balancer" → e.2 = none ∨ e.2 = some 0) →
        get_token_price (fetch_all_prices data) "BAL" = none)
    ∧ (∀ (data : List (String × Option ℚ)) (pool : AuraPool) (tvl bal_max_apr : ℚ),
        (∀ e ∈ data, e.1 = "balancer" → e.2 = none ∨ e.2 = some 0) →
        0 < tvl → (∃ r ∈ pool.rewardData, r.tokenSymbol = "BAL" ∧ 0 < r.rewardRate) →
        ∃ res, calculate_aura_apr (get_token_price (fetch_all_prices data)) (some pool)
            tvl bal_max_apr = some res ∧ res.bal_apr = bal_max_apr)
    ∧ (∀ (getPrice : String → Option ℚ) (tvl bal_max_apr : ℚ) (acc : AuraAprAcc)
        (r : RewardData), getPrice r.tokenSymbol = none → r.tokenSymbol ≠ "BAL" →
        auraRewardStep getPrice tvl bal_max_apr acc r = acc) := by
  have hstep0 : ∀ (cache : List (String × ℚ)) (cg : String),
      applyPriceEntry cache (cg, some 0) = cache := by
    intro cache cg
    simp [applyPriceEntry]
  refine ⟨fun cache cg => ⟨hstep0 cache cg, rfl⟩, ?_, get_token_price_BAL_none, ?_, ?_⟩
  · intro pre post cg
    unfold fetch_all_prices
    rw [List.foldl_append, List.foldl_append, List.foldl_cons, hstep0]
  · intro data pool tvl bal_max_apr hd htvl hex
    have hne : ¬ tvl ≤ 0 := not_le.mpr htvl
    have hf : isFalsyPrice (get_token_price (fetch_all_prices data) "BAL") = true := by
      rw [get_token_price_BAL_none data hd]
      rfl
    obtain ⟨r, hrmem, hsym, hrate⟩ := hex
    have hany : pool.rewardData.any
        (fun x => x.tokenSymbol == "BAL" && decide (0 < x.rewardRate)) = true :=
      List.any_eq_true.mpr ⟨r, hrmem, by simp [hsym, hrate]⟩
    have hbal := foldl_bal_of_falsyBAL (get_token_price (fetch_all_prices data))
      tvl bal_max_apr hf pool.rewardData ⟨0, 0, 0⟩
    rw [if_pos hany] at hbal
    simp only [calculate_aura_apr, if_neg hne]
    exact ⟨_, rfl, hbal⟩
  · intro getPrice tvl bal_max_apr acc r h hne
    simp [auraRewardStep, h, hne, isFalsyPrice]

/-- A concrete oracle response in which the `balancer` id prices at 0. -/
def zeroPriceData : List (String × Option ℚ) :=
  [("balancer", some 0), ("aura-finance", some 5)]

/-- Witness for C10 on the concrete zero-priced response. -/
theorem zero_price_like_missing_check :
    applyPriceEntry [] ("balancer", some 0) = []
    ∧ fetch_all_prices ([] ++ ("balancer", some 0) :: []) = fetch_all_prices ([] ++ [])
    ∧ get_token_price (fetch_all_prices zeroPriceData) "BAL" = none
    ∧ (∃ res, calculate_aura_apr (get_token_price (fetch_all_prices zeroPriceData))
        (some ⟨[⟨"BAL", 18, 1⟩], 0, none⟩) 1 9 = some res ∧ res.bal_apr = 9)
    ∧ auraRewardStep (fun _ => none) 1 9 ⟨1, 2, 3⟩ ⟨"GHO", 18, 1⟩ = ⟨1, 2, 3⟩ := by
  have hd : ∀ e ∈ zeroPriceData, e.1 = "balancer" → e.2 = none ∨ e.2 = some 0 := by
    intro e he
    rcases (by simpa [zeroPriceData] using he :
        e = ("balancer", some 0) ∨ e = ("aura-finance", some 5)) with he | he <;> subst he
    · intro _
      right
      rfl
    · intro hcon
      exact absurd hcon (by decide)
  refine ⟨(zero_price_like_missing.1 [] "balancer").1,
    zero_price_like_missing.2.1 [] [] "balancer",
    zero_price_like_missing.2.2.1 zeroPriceData hd,
    zero_price_like_missing.2.2.2.1 zeroPriceData ⟨[⟨"BAL", 18, 1⟩], 0, none⟩ 1 9 hd
      (by norm_num) ⟨⟨"BAL", 18, 1⟩, by simp, rfl, by norm_num⟩,
    zero_price_like_missing.2.2.2.2 (fun _ => none) 1 9 ⟨1, 2, 3⟩ ⟨"GHO", 18, 1⟩ rfl
      (by decide)⟩

end BalancerTracker
